import Mathlib

/-!
# Verification of the archadeptcli bit-field diagram engine and CLI glue

Shallow embedding of `src/archadeptcli/__main__.py` (command-line validation,
render-target resolution, exception handling, project metadata lookup) and of
the bit-field diagram engine described by the specification (field-spec
parsing, layout with overlay values).  The diagram engine itself
(`archadeptcli.diagram`) ships outside the sources at hand, so those
definitions are modelled from the specification and are marked as such.
-/

namespace ArchAdept

/-! ## Field spec data model (spec §3) -/

/-- Modelled from the spec: a FieldSpec is a named or anonymous contiguous bit
range `[lo, hi]` within a fixed-width subject, optionally carrying a value. -/
structure FieldSpec where
  name : List Char
  hi : Nat
  lo : Nat
  value : Option Nat
deriving DecidableEq, Repr

/-- Bit width of a field, `hi - lo + 1` (spec §3). -/
def fieldWidth (f : FieldSpec) : Nat := f.hi - f.lo + 1

/-! ## Numeral printing and reading

Minimal-width base-`b` numerals, most significant digit first, written with a
fuel argument so that every definition reduces inside the kernel. -/

/-- The character for digit `d` (0-9 then lowercase a-f). -/
def digitChar (d : Nat) : Char :=
  if d < 10 then Char.ofNat (48 + d) else Char.ofNat (87 + d)

/-- Numeric value of a digit character (0 for non-digits). -/
def digitVal (c : Char) : Nat :=
  if 48 ≤ c.toNat ∧ c.toNat ≤ 57 then c.toNat - 48
  else if 97 ≤ c.toNat ∧ c.toNat ≤ 102 then c.toNat - 87
  else if 65 ≤ c.toNat ∧ c.toNat ≤ 70 then c.toNat - 55
  else 0

/-- Decimal digit predicate.  -/
def isDigitChar (c : Char) : Bool := 48 ≤ c.toNat && c.toNat ≤ 57

/-- Hexadecimal digit predicate (either case). -/
def isHexDigitChar (c : Char) : Bool :=
  isDigitChar c || (97 ≤ c.toNat && c.toNat ≤ 102) || (65 ≤ c.toNat && c.toNat ≤ 70)

/-- Identifier characters admissible in a field name. -/
def isIdentChar (c : Char) : Bool := c.isAlphanum || c == '_'

/-- Emit the base-`b` digits of `n` in front of `acc`, most significant first.
`fuel` bounds the recursion depth; `n + 1` always suffices. -/
def natReprAux (b : Nat) : Nat → Nat → List Char → List Char
  | 0, _, acc => acc
  | fuel + 1, n, acc =>
    if n < b then digitChar n :: acc
    else natReprAux b fuel (n / b) (digitChar (n % b) :: acc)

/-- Minimal-width base-`b` numeral of `n`, most significant digit first. -/
def natRepr (b n : Nat) : List Char := natReprAux b (n + 1) n []

/-- Fold digit characters into a number, base `b`, accumulator `a`. -/
def natValAux (b : Nat) : Nat → List Char → Nat
  | a, [] => a
  | a, c :: cs => natValAux b (a * b + digitVal c) cs

/-- Read a base-`b` numeral. -/
def natVal (b : Nat) (cs : List Char) : Nat := natValAux b 0 cs

/-! ## Field spec parser (spec §4.1)

Grammar: `token := [name] "[" hi [":" lo] "]" ["=" value]` where `name` is an
identifier or empty, `"[" hi "]"` with no colon means `lo = hi`, and `value`
is a decimal or `0x`-prefixed hexadecimal literal. -/

/-- Longest prefix of characters satisfying `p`, and the remainder. -/
def spanP (p : Char → Bool) : List Char → List Char × List Char
  | [] => ([], [])
  | c :: cs =>
    if p c then
      let (tk, dr) := spanP p cs
      (c :: tk, dr)
    else ([], c :: cs)

/-- Modelled from the spec: parse a decimal or `0x`-prefixed hexadecimal
literal occupying the whole input. -/
def parseNum (cs : List Char) : Option Nat :=
  match cs with
  | c0 :: c1 :: rest =>
    if c0 = '0' ∧ c1 = 'x' then
      if !rest.isEmpty && rest.all isHexDigitChar then some (natVal 16 rest) else none
    else if !cs.isEmpty && cs.all isDigitChar then some (natVal 10 cs) else none
  | _ => if !cs.isEmpty && cs.all isDigitChar then some (natVal 10 cs) else none

/-- Modelled from the spec: parse the optional `=value` suffix of a field
token, the part after the closing bracket. -/
def parseValueSuffix (name : List Char) (hi lo : Nat) (rest : List Char) :
    Option FieldSpec :=
  match rest with
  | [] => some ⟨name, hi, lo, none⟩
  | c :: vs =>
    if c = '=' then (parseNum vs).map fun v => ⟨name, hi, lo, some v⟩ else none

/-- Stage of `parseFieldSpec` after `name "[" hi ":"`: the low index and the
closing bracket. -/
def parseLoPart (name : List Char) (hi : Nat) (r3 : List Char) : Option FieldSpec :=
  match spanP isDigitChar r3 with
  | (lds, r4) =>
    if lds.isEmpty then none
    else
      match r4 with
      | [] => none
      | c :: r5 =>
        if c = ']' then parseValueSuffix name hi (natVal 10 lds) r5 else none

/-- Stage of `parseFieldSpec` after `name "[" hi`: either the closing bracket
(single-bit field, `lo = hi`) or a colon and the low index. -/
def parseAfterHi (name : List Char) (hi : Nat) (r2 : List Char) : Option FieldSpec :=
  match r2 with
  | [] => none
  | c :: r3 =>
    if c = ']' then parseValueSuffix name hi hi r3
    else if c = ':' then parseLoPart name hi r3
    else none

/-- Stage of `parseFieldSpec` after `name "["`: the high index and onwards. -/
def parseAfterBracket (name : List Char) (r1 : List Char) : Option FieldSpec :=
  match spanP isDigitChar r1 with
  | (hds, r2) =>
    if hds.isEmpty then none else parseAfterHi name (natVal 10 hds) r2

/-- Modelled from the spec: parse one field token
`[name] "[" hi [":" lo] "]" ["=" value]`; `none` models `MalformedFieldSpec`. -/
def parseFieldSpec (cs : List Char) : Option FieldSpec :=
  match spanP isIdentChar cs with
  | (name, rest) =>
    match rest with
    | [] => none
    | c :: r1 => if c = '[' then parseAfterBracket name r1 else none

/-- Modelled from the spec: canonical token form of a FieldSpec — the name,
the bracketed bit range (single index when `hi = lo`), and the value, if any,
as a minimal-width `0x` hexadecimal literal, e.g. `Rn[9:5]=0x5`. -/
def serializeFieldSpec (f : FieldSpec) : List Char :=
  f.name ++ '[' :: natRepr 10 f.hi ++
    (if f.hi = f.lo then [] else ':' :: natRepr 10 f.lo) ++ [']'] ++
    (match f.value with
     | none => []
     | some v => '=' :: '0' :: 'x' :: natRepr 16 v)

/-! ## Layout engine (spec §4.2)

Modelled from the spec: the diagram engine module is not among the sources at
hand, so `layout` follows §4.2 word by word — validate ranges and overlaps,
walk bit positions from `W-1` down to `0`, determine each position's owning
field, group contiguous positions under the same field into cells, and label
each cell from its field's name and displayed value (overlay bits when an
overlay value is present). -/

/-- The user-facing error taxonomy of the diagram engine (spec §7). -/
inductive DiagramError where
  | MalformedFieldSpec
  | OutOfRangeField
  | FieldOverlap
  | ValueOutOfRange
  | UnknownSubjectName
deriving DecidableEq, Repr

/-- A field lies within `[0, width-1]` with `hi ≥ lo` (spec §3). -/
def fieldInRange (width : Nat) (f : FieldSpec) : Bool :=
  decide (f.lo ≤ f.hi) && decide (f.hi < width)

/-- Two fields share at least one bit index. -/
def overlaps (f g : FieldSpec) : Bool :=
  decide (f.lo ≤ g.hi) && decide (g.lo ≤ f.hi)

/-- No two fields of the list share a bit index. -/
def noOverlap : List FieldSpec → Bool
  | [] => true
  | f :: rest => rest.all (fun g => !overlaps f g) && noOverlap rest

/-- First index (counting from `start`) of a field satisfying `p`. -/
def findIdxFrom (p : FieldSpec → Bool) : Nat → List FieldSpec → Option Nat
  | _, [] => none
  | start, f :: rest =>
    if p f then some start else findIdxFrom p (start + 1) rest

/-- Index of the field owning bit position `i`, by range containment;
`none` marks an unnamed position (spec §4.2). -/
def ownerIdx (fields : List FieldSpec) (i : Nat) : Option Nat :=
  findIdxFrom (fun f => decide (f.lo ≤ i) && decide (i ≤ f.hi)) 0 fields

/-- Group contiguous positions with the same key into runs, preserving order. -/
def groupRuns (key : Nat → Option Nat) : List Nat → List (List Nat)
  | [] => []
  | i :: rest =>
    match groupRuns key rest with
    | [] => [[i]]
    | [] :: gs => [i] :: [] :: gs
    | (j :: g) :: gs =>
      if key i == key j then (i :: j :: g) :: gs else [i] :: (j :: g) :: gs

/-- One visual cell of a layout row: the owning field's name (`none` for an
unnamed cell), the rendered value label, and the bit positions it spans. -/
structure Cell where
  name : Option (List Char)
  valueLabel : Option (List Char)
  bits : List Nat
deriving DecidableEq, Repr

/-- Modelled from the spec: the value displayed for a field — the overlay
value's bits restricted to the field's span when an overlay is present
(overlay wins, conflicts are not an error), else the field's own value. -/
def displayedValue (overlay : Option Nat) (f : FieldSpec) : Option Nat :=
  match overlay with
  | some v => some (v / 2 ^ f.lo % 2 ^ fieldWidth f)
  | none => f.value

/-- Bit width rounded up to whole nibbles. -/
def nibbleCount (w : Nat) : Nat := (w + 3) / 4

/-- Left-pad with zero characters up to `len` characters. -/
def padLeftZeros (len : Nat) (cs : List Char) : List Char :=
  List.replicate (len - cs.length) '0' ++ cs

/-- Modelled from the spec: render a field's value — a single binary digit
for a one-bit field, otherwise hexadecimal zero-padded to the field's bit
width rounded up to a nibble. -/
def renderValue (w v : Nat) : List Char :=
  if w = 1 then natRepr 2 v
  else '0' :: 'x' :: padLeftZeros (nibbleCount w) (natRepr 16 v)

/-- The cell spanning `grp` for an owning field (or none, unnamed): the label
combines the field's name and the rendering of its displayed value. -/
def cellOfField (overlay : Option Nat) (grp : List Nat) : Option FieldSpec → Cell
  | none => ⟨none, none, grp⟩
  | some f =>
    ⟨some f.name,
     (displayedValue overlay f).map fun v => renderValue (fieldWidth f) v,
     grp⟩

/-- The cell spanning `grp` given the owning-field index of its first bit. -/
def cellAtIdx (fields : List FieldSpec) (overlay : Option Nat) (grp : List Nat)
    (i : Nat) : Cell :=
  match ownerIdx fields i with
  | none => ⟨none, none, grp⟩
  | some idx => cellOfField overlay grp fields[idx]?

/-- Build the cell for one run of contiguous bit positions. -/
def mkCell (fields : List FieldSpec) (overlay : Option Nat) (grp : List Nat) :
    Cell :=
  match grp.head? with
  | none => ⟨none, none, grp⟩
  | some i => cellAtIdx fields overlay grp i

/-- Modelled from the spec: the layout operation of §4.2 — re-validate ranges
and overlaps, then split `[width-1, …, 0]` into cells, one per maximal run of
positions under the same owning field (or unnamed). -/
def layout (fields : List FieldSpec) (width : Nat) (overlay : Option Nat) :
    Except DiagramError (List Cell) :=
  if !(fields.all (fieldInRange width)) then Except.error DiagramError.OutOfRangeField
  else if !(noOverlap fields) then Except.error DiagramError.FieldOverlap
  else
    Except.ok
      ((groupRuns (ownerIdx fields) (List.range width).reverse).map
        (mkCell fields overlay))

/-- Forget a field's per-field literal value. -/
def clearValue (f : FieldSpec) : FieldSpec :=
  { f with value := none }

/-! ## Command-line glue (src/archadeptcli/__main__.py)

Shallow embedding of the validation and dispatch logic of `CommandLineArgs`
and `main` for the `opcode` and `register` commands. -/

/-- The six diagram-related boolean flags of the opcode/register commands. -/
structure DiagramFlags where
  ascii : Bool
  bow : Bool
  bot : Bool
  wob : Bool
  wot : Bool
  all : Bool
deriving DecidableEq, Repr

/-- The five render-target booleans handed to `main_diagram`. -/
structure RenderTargets where
  ascii : Bool
  bow : Bool
  bot : Bool
  wob : Bool
  wot : Bool
deriving DecidableEq, Repr

/-- Embeds `main`, lines 714-720: each target is its flag or `--all`, and if
no target at all was requested, ascii is forced on. -/
def resolveTargets (fl : DiagramFlags) : RenderTargets :=
  let doAscii := fl.ascii || fl.all
  let doBow := fl.bow || fl.all
  let doBot := fl.bot || fl.all
  let doWob := fl.wob || fl.all
  let doWot := fl.wot || fl.all
  if !(doAscii || doBow || doBot || doWob || doWot) then
    ⟨true, doBow, doBot, doWob, doWot⟩
  else
    ⟨doAscii, doBow, doBot, doWob, doWot⟩

/-- The `NAME` attribute after `CommandLineArgs.__init__` finishes: `None`, a
single collapsed string, or the original list (Python is dynamically typed,
so the attribute can hold either shape). -/
inductive PyNameValue where
  | pyNone
  | pyStr (s : String)
  | pyList (l : List String)
deriving DecidableEq, Repr

/-- Python truthiness of an optional list (None and the empty list are falsy). -/
def optListTruthy : Option (List String) → Bool
  | none => false
  | some l => !l.isEmpty

/-- Python truthiness of the validated NAME attribute. -/
def pyNameTruthy : PyNameValue → Bool
  | PyNameValue.pyNone => false
  | PyNameValue.pyStr s => !s.isEmpty
  | PyNameValue.pyList l => !l.isEmpty

/-- The collapse step of lines 494-495: a one-element NAME list becomes the
string itself; any other length is left as the list. -/
def collapseName (field : Option (List String)) :
    List String → Except String (PyNameValue × Option (List String))
  | [s] => Except.ok (PyNameValue.pyStr s, field)
  | l => Except.ok (PyNameValue.pyList l, field)

/-- The NAME branch of lines 490-495: more than one name is a parser error,
otherwise the collapse step runs; an absent NAME is left untouched. -/
def validateNamePart (field : Option (List String)) :
    Option (List String) → Except String (PyNameValue × Option (List String))
  | none => Except.ok (PyNameValue.pyNone, field)
  | some l =>
    if 1 < l.length then Except.error "expected exactly one name"
    else collapseName field l

/-- Embeds the extra validation of `CommandLineArgs.__init__`, lines 486-495:
a truthy NAME together with truthy fields is a parser error, more than one
NAME is a parser error, and exactly one NAME collapses to a string.
`Except.error` models `argparse.ArgumentParser.error`, which exits instead of
reaching `main_diagram`. -/
def validateDiagramArgs (name field : Option (List String)) :
    Except String (PyNameValue × Option (List String)) :=
  if optListTruthy name && optListTruthy field then
    Except.error "manually specifying fields using --field is mutually exclusive with specifying a name"
  else validateNamePart field name

/-- The accepted widths of the `-s` option (lines 303-313). -/
def widthChoices : List Int := [8, 16, 32, 64]

/-- Embeds the `-s` option declaration of the opcode/register commands under
argparse semantics: an omitted option yields the declared default 32, a
supplied value outside `choices=(8, 16, 32, 64)` is rejected at argument
parsing. -/
def parseWidthOption : Option Int → Except String Int
  | none => Except.ok 32
  | some v =>
    if v ∈ widthChoices then Except.ok v
    else Except.error "invalid choice"

/-- Modelled from the spec: the exception taxonomy — `ArchAdeptError` is the
user-facing error class of `archadeptcli.exceptions` (not among the sources
at hand); anything else is an arbitrary Python exception. -/
inductive AppException where
  | archAdeptError (msg : String)
  | otherException (msg : String)
deriving DecidableEq, Repr

/-- Modelled from the spec: what can propagate out of `main` — a re-raised
`ArchAdeptError` (debug mode), or an `UngracefulExit` wrapping an exception
outside the user-facing taxonomy. -/
inductive FinalException where
  | archAdeptError (msg : String)
  | ungracefulExit (cause : String)
deriving DecidableEq, Repr

/-- Embeds the try/except of `main`, lines 699-734: the body either returns
an exit code or raises.  An `ArchAdeptError` is rendered (the Bool records
the `e.render()` call) and turns into exit status 1 unless debug mode
re-raises it; any other exception is re-raised wrapped as `UngracefulExit`. -/
def mainExceptionHandler (debug : Bool) (body : Except AppException Int) :
    Except FinalException Int × Bool :=
  match body with
  | Except.ok code => (Except.ok code, false)
  | Except.error (AppException.archAdeptError m) =>
    if debug then (Except.error (FinalException.archAdeptError m), true)
    else (Except.ok 1, true)
  | Except.error (AppException.otherException m) =>
    (Except.error (FinalException.ungracefulExit m), false)

/-! ## Project metadata lookup (get_project_default_optimization_level) -/

/-- A parsed JSON value as produced by Python's `json.load` (floats omitted —
no claim involves them). -/
inductive JValue where
  | jnull
  | jbool (b : Bool)
  | jint (n : Int)
  | jstr (s : String)
  | jarr (elems : List JValue)
  | jobj (kvs : List (String × JValue))

/-- Python runtime errors the embedded operations can raise. -/
inductive PyError where
  | typeError
  | keyError
deriving DecidableEq, Repr

/-- Contiguous-sublist (substring) test. -/
def subContains (needle : List Char) : List Char → Bool
  | [] => needle.isEmpty
  | c :: rest => needle.isPrefixOf (c :: rest) || subContains needle rest

/-- Python's `==` between a value and a string: structural equality for
strings, `False` for every other type (no coercion). -/
def pyEqStr (key : String) : JValue → Bool
  | JValue.jstr s => s == key
  | _ => false

/-- Python's `key in value` for a string key: key lookup on dicts, element
equality on lists, substring test on strings; `TypeError` on values that are
not containers (int, bool, None). -/
def pyContains (key : String) : JValue → Except PyError Bool
  | JValue.jobj kvs => Except.ok (kvs.any fun kv => kv.1 == key)
  | JValue.jarr elems => Except.ok (elems.any (pyEqStr key))
  | JValue.jstr s => Except.ok (subContains key.toList s.toList)
  | _ => Except.error PyError.typeError

/-- Python's `value[key]` for a string key: dict lookup (`KeyError` when the
key is absent), `TypeError` on every other value. -/
def pySubscriptStr (key : String) : JValue → Except PyError JValue
  | JValue.jobj kvs =>
    match kvs.find? (fun kv => kv.1 == key) with
    | some kv => Except.ok kv.2
    | none => Except.error PyError.keyError
  | _ => Except.error PyError.typeError

/-- Python's `isinstance(v, int)`: true for ints and for bools (bool is a
subclass of int). -/
def pyIsInstanceOfInt : JValue → Bool
  | JValue.jint _ => true
  | JValue.jbool _ => true
  | _ => false

/-- The integer value of a Python int (or bool coerced to int). -/
def pyIntValue : JValue → Int
  | JValue.jint n => n
  | JValue.jbool b => if b then 1 else 0
  | _ => 0

/-- Embeds `get_project_default_optimization_level`, lines 572-591.
`metadata` is the result of `get_project_metadata` (`none` when the config
file is missing, unreadable or unparsable).  The condition
`'optimize' in metadata and isinstance(metadata['optimize'], int)` is
evaluated left to right with Python's container semantics, so it can raise
`TypeError` on non-dict JSON. -/
def getProjectDefaultOptimizationLevel (metadata : Option JValue) :
    Except PyError Int :=
  match metadata with
  | none => Except.ok 1
  | some m =>
    match pyContains "optimize" m with
    | Except.error e => Except.error e
    | Except.ok false => Except.ok 1
    | Except.ok true =>
      match pySubscriptStr "optimize" m with
      | Except.error e => Except.error e
      | Except.ok v =>
        if pyIsInstanceOfInt v then Except.ok (pyIntValue v) else Except.ok 1

/-! ## Numeral lemmas -/

theorem digitVal_digitChar {d : Nat} (hd : d < 16) : digitVal (digitChar d) = d := by
  interval_cases d <;> decide

theorem isDigitChar_digitChar {d : Nat} (hd : d < 10) :
    isDigitChar (digitChar d) = true := by
  interval_cases d <;> decide

theorem isHexDigitChar_digitChar {d : Nat} (hd : d < 16) :
    isHexDigitChar (digitChar d) = true := by
  interval_cases d <;> decide

theorem natReprAux_append {b : Nat} (hb : 2 ≤ b) :
    ∀ fuel n acc, n < fuel →
      natReprAux b fuel n acc = natReprAux b fuel n [] ++ acc := by
  intro fuel
  induction fuel with
  | zero => intro n acc h; omega
  | succ f ih =>
    intro n acc h
    by_cases hnb : n < b
    · simp [natReprAux, hnb]
    · have hdivn : n / b < n := Nat.div_lt_self (by omega) (by omega)
      have hdiv : n / b < f := by omega
      simp only [natReprAux, if_neg hnb]
      rw [ih (n / b) (digitChar (n % b) :: acc) hdiv,
        ih (n / b) [digitChar (n % b)] hdiv]
      simp

theorem natReprAux_cons {b : Nat} (hb : 2 ≤ b) :
    ∀ fuel n acc, n < fuel → ∃ c t, natReprAux b fuel n acc = c :: t := by
  intro fuel
  induction fuel with
  | zero => intro n acc h; omega
  | succ f ih =>
    intro n acc h
    by_cases hnb : n < b
    · exact ⟨digitChar n, acc, by simp [natReprAux, hnb]⟩
    · have hdivn : n / b < n := Nat.div_lt_self (by omega) (by omega)
      have hdiv : n / b < f := by omega
      simpa [natReprAux, hnb] using ih (n / b) (digitChar (n % b) :: acc) hdiv

theorem natRepr_ne_nil {b : Nat} (hb : 2 ≤ b) (n : Nat) : natRepr b n ≠ [] := by
  obtain ⟨c, t, hct⟩ := natReprAux_cons hb (n + 1) n [] (Nat.lt_succ_self n)
  simp [natRepr, hct]

theorem natReprAux_mem {b : Nat} (hb : 1 ≤ b) :
    ∀ fuel n acc c, c ∈ natReprAux b fuel n acc →
      (∃ d, d < b ∧ c = digitChar d) ∨ c ∈ acc := by
  intro fuel
  induction fuel with
  | zero => intro n acc c hc; exact Or.inr hc
  | succ f ih =>
    intro n acc c hc
    by_cases hnb : n < b
    · simp only [natReprAux, if_pos hnb, List.mem_cons] at hc
      rcases hc with rfl | hc
      · exact Or.inl ⟨n, hnb, rfl⟩
      · exact Or.inr hc
    · simp only [natReprAux, if_neg hnb] at hc
      rcases ih _ _ c hc with h | h
      · exact Or.inl h
      · rcases List.mem_cons.mp h with rfl | h2
        · exact Or.inl ⟨n % b, Nat.mod_lt n (by omega), rfl⟩
        · exact Or.inr h2

theorem natRepr_all_digits (n : Nat) :
    ∀ c ∈ natRepr 10 n, isDigitChar c = true := by
  intro c hc
  rcases natReprAux_mem (by omega) _ _ _ c hc with ⟨d, hd, rfl⟩ | h
  · exact isDigitChar_digitChar hd
  · simp at h

theorem natRepr_all_hex (n : Nat) :
    ∀ c ∈ natRepr 16 n, isHexDigitChar c = true := by
  intro c hc
  rcases natReprAux_mem (by omega) _ _ _ c hc with ⟨d, hd, rfl⟩ | h
  · exact isHexDigitChar_digitChar hd
  · simp at h

theorem natValAux_append (b a : Nat) (xs ys : List Char) :
    natValAux b a (xs ++ ys) = natValAux b (natValAux b a xs) ys := by
  induction xs generalizing a with
  | nil => rfl
  | cons c cs ih => simp [natValAux, ih]

theorem natVal_natRepr {b : Nat} (hb : 2 ≤ b) (hb16 : b ≤ 16) (n : Nat) :
    natVal b (natRepr b n) = n := by
  suffices h : ∀ fuel n, n < fuel → natValAux b 0 (natReprAux b fuel n []) = n by
    exact h (n + 1) n (Nat.lt_succ_self n)
  intro fuel
  induction fuel with
  | zero => intro n h; omega
  | succ f ih =>
    intro n h
    by_cases hnb : n < b
    · simp [natReprAux, hnb, natValAux, digitVal_digitChar (show n < 16 by omega)]
    · have hdivn : n / b < n := Nat.div_lt_self (by omega) (by omega)
      have hdiv : n / b < f := by omega
      have hmod : n % b < b := Nat.mod_lt n (by omega)
      simp only [natReprAux, if_neg hnb]
      rw [natReprAux_append hb f (n / b) _ hdiv, natValAux_append, ih (n / b) hdiv]
      simp only [natValAux, digitVal_digitChar (show n % b < 16 by omega)]
      rw [Nat.mul_comm]
      exact Nat.div_add_mod n b

/-! ## Span lemmas -/

theorem spanP_append (p : Char → Bool) (xs ys : List Char)
    (hxs : ∀ c ∈ xs, p c = true) (hys : ∀ c, ys.head? = some c → p c = false) :
    spanP p (xs ++ ys) = (xs, ys) := by
  induction xs with
  | nil =>
    simp only [List.nil_append]
    cases ys with
    | nil => rfl
    | cons c cs =>
      have hc : p c = false := hys c rfl
      simp [spanP, hc]
  | cons x xs ih =>
    have hx : p x = true := hxs x (List.mem_cons_self x xs)
    have hxs2 : ∀ c ∈ xs, p c = true := fun c hc => hxs c (List.mem_cons_of_mem x hc)
    simp [spanP, hx, ih hxs2]

theorem head_not_of_false {p : Char → Bool} {c0 : Char} (h : p c0 = false)
    (t : List Char) : ∀ c, (c0 :: t).head? = some c → p c = false := by
  intro c hc
  simp only [List.head?_cons, Option.some.injEq] at hc
  subst hc
  exact h

/-! ## Field-spec parser step lemmas -/

theorem parseFieldSpec_name_bracket (name T : List Char)
    (hname : ∀ c ∈ name, isIdentChar c = true) :
    parseFieldSpec (name ++ '[' :: T) = parseAfterBracket name T := by
  unfold parseFieldSpec
  rw [spanP_append isIdentChar name ('[' :: T) hname
    (head_not_of_false (by decide) T)]
  simp

theorem parseAfterBracket_digits (name D rest : List Char)
    (hD : ∀ c ∈ D, isDigitChar c = true) (hne : D ≠ [])
    (hrest : ∀ c, rest.head? = some c → isDigitChar c = false) :
    parseAfterBracket name (D ++ rest) = parseAfterHi name (natVal 10 D) rest := by
  unfold parseAfterBracket
  rw [spanP_append isDigitChar D rest hD hrest]
  cases D with
  | nil => exact absurd rfl hne
  | cons c t => simp

theorem parseAfterHi_close (name : List Char) (hi : Nat) (VAL : List Char) :
    parseAfterHi name hi (']' :: VAL) = parseValueSuffix name hi hi VAL := rfl

theorem parseAfterHi_colon (name : List Char) (hi : Nat) (X : List Char) :
    parseAfterHi name hi (':' :: X) = parseLoPart name hi X := rfl

theorem parseLoPart_digits (name : List Char) (hi : Nat) (L VAL : List Char)
    (hL : ∀ c ∈ L, isDigitChar c = true) (hne : L ≠ []) :
    parseLoPart name hi (L ++ ']' :: VAL) =
      parseValueSuffix name hi (natVal 10 L) VAL := by
  unfold parseLoPart
  rw [spanP_append isDigitChar L (']' :: VAL) hL (head_not_of_false (by decide) VAL)]
  cases L with
  | nil => exact absurd rfl hne
  | cons c t => simp

theorem parseNum_hexLit (v : Nat) :
    parseNum ('0' :: 'x' :: natRepr 16 v) = some v := by
  obtain ⟨c, t, hct⟩ :=
    @natReprAux_cons 16 (by omega) (v + 1) v [] (Nat.lt_succ_self v)
  have hne : (natRepr 16 v).isEmpty = false := by
    unfold natRepr
    rw [hct]
    rfl
  have hhex : (natRepr 16 v).all isHexDigitChar = true :=
    List.all_eq_true.mpr (natRepr_all_hex v)
  unfold parseNum
  simp [hne, hhex, @natVal_natRepr 16 (by omega) (by omega) v]

theorem parseValueSuffix_hexLit (name : List Char) (hi lo v : Nat) :
    parseValueSuffix name hi lo ('=' :: '0' :: 'x' :: natRepr 16 v) =
      some ⟨name, hi, lo, some v⟩ := by
  show (parseNum ('0' :: 'x' :: natRepr 16 v)).map _ = _
  rw [parseNum_hexLit]
  rfl

/-- C2: serializing a FieldSpec to its canonical token form and re-parsing
that token yields the same FieldSpec (parser/pretty-printer round-trip law),
for every FieldSpec whose name consists of identifier characters. -/
theorem C2_parse_serialize_roundtrip (f : FieldSpec)
    (hname : ∀ c ∈ f.name, isIdentChar c = true) :
    parseFieldSpec (serializeFieldSpec f) = some f := by
  obtain ⟨name, hi, lo, value⟩ := f
  have hname2 : ∀ c ∈ name, isIdentChar c = true := hname
  clear hname
  have hD := natRepr_all_digits hi
  have hDne : natRepr 10 hi ≠ [] := @natRepr_ne_nil 10 (by omega) hi
  have hL := natRepr_all_digits lo
  have hLne : natRepr 10 lo ≠ [] := @natRepr_ne_nil 10 (by omega) lo
  by_cases hlo : hi = lo
  · subst hlo
    have hser : serializeFieldSpec ⟨name, hi, hi, value⟩ =
        name ++ '[' :: (natRepr 10 hi ++ ']' ::
          (match value with
           | none => []
           | some v => '=' :: '0' :: 'x' :: natRepr 16 v)) := by
      simp [serializeFieldSpec]
    rw [hser, parseFieldSpec_name_bracket name _ hname2,
      parseAfterBracket_digits name (natRepr 10 hi) _ hD hDne
        (head_not_of_false (by decide) _),
      @natVal_natRepr 10 (by omega) (by omega) hi,
      parseAfterHi_close]
    cases value with
    | none => rfl
    | some v => exact parseValueSuffix_hexLit name hi hi v
  · have hser : serializeFieldSpec ⟨name, hi, lo, value⟩ =
        name ++ '[' :: (natRepr 10 hi ++ ':' :: (natRepr 10 lo ++ ']' ::
          (match value with
           | none => []
           | some v => '=' :: '0' :: 'x' :: natRepr 16 v))) := by
      simp [serializeFieldSpec, hlo]
    rw [hser, parseFieldSpec_name_bracket name _ hname2,
      parseAfterBracket_digits name (natRepr 10 hi) _ hD hDne
        (head_not_of_false (by decide) _),
      @natVal_natRepr 10 (by omega) (by omega) hi,
      parseAfterHi_colon,
      parseLoPart_digits name hi (natRepr 10 lo) _ hL hLne,
      @natVal_natRepr 10 (by omega) (by omega) lo]
    cases value with
    | none => rfl
    | some v => exact parseValueSuffix_hexLit name hi lo v

/-- C2 witness: the spec's example `Rn[9:5]=0x5` serializes and re-parses to
itself. -/
theorem C2_roundtrip_witness :
    serializeFieldSpec ⟨"Rn".toList, 9, 5, some 5⟩ = "Rn[9:5]=0x5".toList ∧
    parseFieldSpec ("Rn[9:5]=0x5".toList) = some ⟨"Rn".toList, 9, 5, some 5⟩ ∧
    parseFieldSpec (serializeFieldSpec ⟨"Rn".toList, 9, 5, some 5⟩) =
      some ⟨"Rn".toList, 9, 5, some 5⟩ :=
  ⟨by decide, by decide,
    C2_parse_serialize_roundtrip ⟨"Rn".toList, 9, 5, some 5⟩ (by decide)⟩

/-! ## Layout lemmas -/

theorem groupRuns_flatten (key : Nat → Option Nat) :
    ∀ l : List Nat, (groupRuns key l).flatten = l := by
  intro l
  induction l with
  | nil => rfl
  | cons i rest ih =>
    cases hg : groupRuns key rest with
    | nil =>
      have hrest : rest = [] := by rw [← ih, hg]; rfl
      simp [groupRuns, hg, hrest]
    | cons g gs =>
      cases g with
      | nil =>
        have hunf : groupRuns key (i :: rest) = [i] :: [] :: gs := by
          simp only [groupRuns]
          rw [hg]
        rw [hg] at ih
        simp only [List.flatten_cons, List.nil_append] at ih
        rw [hunf]
        simp [ih]
      | cons j t =>
        have hunf : groupRuns key (i :: rest) =
            if key i == key j then (i :: j :: t) :: gs
            else [i] :: (j :: t) :: gs := by
          simp only [groupRuns]
          rw [hg]
        rw [hg] at ih
        simp only [List.flatten_cons] at ih
        by_cases hk : (key i == key j) = true
        · rw [hunf, if_pos hk]
          simp [ih]
        · rw [hunf, if_neg hk]
          simp [ih]

theorem cellOfField_bits (overlay : Option Nat) (grp : List Nat)
    (of : Option FieldSpec) : (cellOfField overlay grp of).bits = grp := by
  cases of <;> rfl

theorem cellAtIdx_bits (fields : List FieldSpec) (overlay : Option Nat)
    (grp : List Nat) (i : Nat) : (cellAtIdx fields overlay grp i).bits = grp := by
  unfold cellAtIdx
  cases ownerIdx fields i with
  | none => rfl
  | some idx =>
    show (cellOfField overlay grp fields[idx]?).bits = grp
    exact cellOfField_bits overlay grp fields[idx]?

theorem mkCell_bits (fields : List FieldSpec) (overlay : Option Nat)
    (grp : List Nat) : (mkCell fields overlay grp).bits = grp := by
  unfold mkCell
  cases grp.head? with
  | none => rfl
  | some i =>
    show (cellAtIdx fields overlay grp i).bits = grp
    exact cellAtIdx_bits fields overlay grp i

theorem flatten_nodup_exists_unique {α : Type} (gs : List (List α))
    (hnd : gs.flatten.Nodup) (a : α) (ha : a ∈ gs.flatten) :
    ∃! g, g ∈ gs ∧ a ∈ g := by
  induction gs with
  | nil => simp at ha
  | cons g gs ih =>
    simp only [List.flatten_cons] at ha hnd
    rw [List.nodup_append] at hnd
    obtain ⟨hg, hgs, hdisj⟩ := hnd
    rcases List.mem_append.mp ha with hag | hags
    · refine ⟨g, ⟨List.mem_cons_self g gs, hag⟩, ?_⟩
      rintro g2 ⟨hg2mem, hag2⟩
      rcases List.mem_cons.mp hg2mem with rfl | hg2tail
      · rfl
      · exact (hdisj hag (List.mem_flatten.mpr ⟨g2, hg2tail, hag2⟩)).elim
    · obtain ⟨g0, ⟨hg0mem, hag0⟩, huniq⟩ := ih hgs hags
      refine ⟨g0, ⟨List.mem_cons_of_mem g hg0mem, hag0⟩, ?_⟩
      rintro g2 ⟨hg2mem, hag2⟩
      rcases List.mem_cons.mp hg2mem with rfl | hg2tail
      · exact (hdisj hag2 hags).elim
      · exact huniq g2 ⟨hg2tail, hag2⟩

theorem all_fieldInRange_of (width : Nat) (fields : List FieldSpec)
    (hrange : ∀ f ∈ fields, f.lo ≤ f.hi ∧ f.hi < width) :
    fields.all (fieldInRange width) = true :=
  List.all_eq_true.mpr fun f hf => by
    have := hrange f hf
    simp only [fieldInRange, Bool.and_eq_true, decide_eq_true_eq]
    omega

theorem noOverlap_of_pairwise (fields : List FieldSpec)
    (hdisj : List.Pairwise (fun f g => f.hi < g.lo ∨ g.hi < f.lo) fields) :
    noOverlap fields = true := by
  induction fields with
  | nil => rfl
  | cons f rest ih =>
    rw [List.pairwise_cons] at hdisj
    obtain ⟨hf, hrest⟩ := hdisj
    simp only [noOverlap, Bool.and_eq_true]
    refine ⟨List.all_eq_true.mpr fun g hg => ?_, ih hrest⟩
    have := hf g hg
    simp only [overlaps, Bool.not_eq_true', Bool.and_eq_false_iff,
      decide_eq_false_iff_not]
    omega

/-- C1: for every valid width and every field list with pairwise-disjoint bit
ranges contained in `[0, width-1]`, the layout operation succeeds and assigns
every bit index in `[0, width-1]` to exactly one cell (a named field's cell
or an unnamed cell). -/
theorem C1_layout_assigns_every_bit_once (width : Nat)
    (_hw : width = 8 ∨ width = 16 ∨ width = 32 ∨ width = 64)
    (fields : List FieldSpec) (overlay : Option Nat)
    (hrange : ∀ f ∈ fields, f.lo ≤ f.hi ∧ f.hi < width)
    (hdisj : List.Pairwise (fun f g => f.hi < g.lo ∨ g.hi < f.lo) fields) :
    ∃ cells, layout fields width overlay = Except.ok cells ∧
      ∀ i, i < width → ∃! c, c ∈ cells ∧ i ∈ c.bits := by
  have hall := all_fieldInRange_of width fields hrange
  have hnov := noOverlap_of_pairwise fields hdisj
  refine ⟨(groupRuns (ownerIdx fields) (List.range width).reverse).map
    (mkCell fields overlay), ?_, ?_⟩
  · simp [layout, hall, hnov]
  · intro i hi
    have hflat : (groupRuns (ownerIdx fields) (List.range width).reverse).flatten
        = (List.range width).reverse := groupRuns_flatten _ _
    have hnd : (groupRuns (ownerIdx fields) (List.range width).reverse).flatten.Nodup := by
      rw [hflat]
      exact List.nodup_reverse.mpr (List.nodup_range width)
    have hmem : i ∈ (groupRuns (ownerIdx fields) (List.range width).reverse).flatten := by
      rw [hflat]
      simp [List.mem_reverse, List.mem_range, hi]
    obtain ⟨g, ⟨hgmem, hig⟩, huniq⟩ := flatten_nodup_exists_unique _ hnd i hmem
    refine ⟨mkCell fields overlay g, ⟨List.mem_map_of_mem _ hgmem, ?_⟩, ?_⟩
    · rw [mkCell_bits]
      exact hig
    · rintro c ⟨hcmem, hic⟩
      obtain ⟨g2, hg2mem, rfl⟩ := List.mem_map.mp hcmem
      have hg2 : g2 = g := by
        refine huniq g2 ⟨hg2mem, ?_⟩
        rw [← mkCell_bits fields overlay g2]
        exact hic
      rw [hg2]

/-- C1 witness: a two-field 32-bit example within range and disjoint. -/
theorem C1_layout_witness :
    (32 = 8 ∨ 32 = 16 ∨ 32 = 32 ∨ 32 = 64) ∧
    ∃ cells,
      layout [⟨"sf".toList, 31, 31, none⟩, ⟨"imm".toList, 30, 0, none⟩] 32 none =
        Except.ok cells ∧
      ∀ i, i < 32 → ∃! c, c ∈ cells ∧ i ∈ c.bits :=
  ⟨by omega,
    C1_layout_assigns_every_bit_once 32 (by omega)
      [⟨"sf".toList, 31, 31, none⟩, ⟨"imm".toList, 30, 0, none⟩] none
      (by decide) (by decide)⟩

/-! ## Overlay precedence lemmas -/

theorem findIdxFrom_map (p : FieldSpec → Bool) (g : FieldSpec → FieldSpec)
    (fields : List FieldSpec) :
    ∀ start, findIdxFrom p start (fields.map g) =
      findIdxFrom (fun f => p (g f)) start fields := by
  induction fields with
  | nil => intro start; rfl
  | cons f rest ih =>
    intro start
    simp only [List.map_cons, findIdxFrom, ih]

theorem ownerIdx_map_clearValue (fields : List FieldSpec) (i : Nat) :
    ownerIdx (fields.map clearValue) i = ownerIdx fields i := by
  unfold ownerIdx
  rw [findIdxFrom_map]
  rfl

theorem cellAtIdx_map_clearValue (fields : List FieldSpec) (v : Nat)
    (grp : List Nat) (i : Nat) :
    cellAtIdx (fields.map clearValue) (some v) grp i =
      cellAtIdx fields (some v) grp i := by
  unfold cellAtIdx
  rw [ownerIdx_map_clearValue]
  cases ownerIdx fields i with
  | none => rfl
  | some idx =>
    show cellOfField (some v) grp ((fields.map clearValue)[idx]?) =
      cellOfField (some v) grp fields[idx]?
    rw [List.getElem?_map]
    cases fields[idx]? with
    | none => rfl
    | some f => rfl

theorem mkCell_map_clearValue (fields : List FieldSpec) (v : Nat)
    (grp : List Nat) :
    mkCell (fields.map clearValue) (some v) grp = mkCell fields (some v) grp := by
  unfold mkCell
  cases grp.head? with
  | none => rfl
  | some i =>
    show cellAtIdx (fields.map clearValue) (some v) grp i =
      cellAtIdx fields (some v) grp i
    exact cellAtIdx_map_clearValue fields v grp i

theorem noOverlap_map_clearValue (fields : List FieldSpec) :
    noOverlap (fields.map clearValue) = noOverlap fields := by
  induction fields with
  | nil => rfl
  | cons f rest ih =>
    simp only [List.map_cons, noOverlap, ih, List.all_map]
    rfl

theorem layout_overlay_overrides (fields : List FieldSpec) (width v : Nat) :
    layout (fields.map clearValue) width (some v) = layout fields width (some v) := by
  unfold layout
  have hall : (fields.map clearValue).all (fieldInRange width) =
      fields.all (fieldInRange width) := by
    rw [List.all_map]
    rfl
  have h1 : ownerIdx (fields.map clearValue) = ownerIdx fields :=
    funext (ownerIdx_map_clearValue fields)
  have h2 : mkCell (fields.map clearValue) (some v) = mkCell fields (some v) :=
    funext (mkCell_map_clearValue fields v)
  rw [hall, noOverlap_map_clearValue, h1, h2]

/-- C3: with a global overlay value, every field's displayed value is the
overlay's bits restricted to the field's span, overriding any per-field
value; a conflict between overlay and per-field value is not an error (the
result is the same as if every per-field value were unset); and at the
concrete input of the claim — fields sf[31] and imm[30:0], overlay
0x80000001 — sf's rendered label is 1 and imm's is 0x00000001. -/
theorem C3_overlay_precedence :
    (∀ (v : Nat) (f : FieldSpec),
      displayedValue (some v) f = some (v / 2 ^ f.lo % 2 ^ fieldWidth f)) ∧
    (∀ (fields : List FieldSpec) (width v : Nat),
      layout (fields.map clearValue) width (some v) =
        layout fields width (some v)) ∧
    layout [⟨"sf".toList, 31, 31, none⟩, ⟨"imm".toList, 30, 0, none⟩] 32
        (some 0x80000001) =
      Except.ok
        [⟨some "sf".toList, some "1".toList, [31]⟩,
         ⟨some "imm".toList, some "0x00000001".toList, (List.range 31).reverse⟩] :=
  ⟨fun _ _ => rfl, layout_overlay_overrides, by rfl⟩

/-! ## Render-target resolution (C4, C5) -/

/-- C4: for every opcode/register invocation at least one render target is
produced — with none of the six flags set, the ascii boolean handed to
main_diagram is true, and in every case at least one of the five booleans is
true. -/
theorem C4_at_least_one_target (fl : DiagramFlags) :
    (fl.ascii = false ∧ fl.bow = false ∧ fl.bot = false ∧ fl.wob = false ∧
      fl.wot = false ∧ fl.all = false → (resolveTargets fl).ascii = true) ∧
    ((resolveTargets fl).ascii || (resolveTargets fl).bow ||
      (resolveTargets fl).bot || (resolveTargets fl).wob ||
      (resolveTargets fl).wot) = true := by
  obtain ⟨a, b, c, d, e, g⟩ := fl
  revert a b c d e g
  decide

/-- C4 witness: the all-flags-off invocation gets the implicit ascii target. -/
theorem C4_at_least_one_target_witness :
    (resolveTargets ⟨false, false, false, false, false, false⟩).ascii = true :=
  (C4_at_least_one_target ⟨false, false, false, false, false, false⟩).1
    ⟨rfl, rfl, rfl, rfl, rfl, rfl⟩

/-- C5: with the all flag set, all five target booleans handed to
main_diagram are true regardless of the individual flags, and the result
equals that of passing the five individual flags. -/
theorem C5_all_flag_expands (fl : DiagramFlags) (hall : fl.all = true) :
    resolveTargets fl = ⟨true, true, true, true, true⟩ ∧
    resolveTargets fl = resolveTargets ⟨true, true, true, true, true, false⟩ := by
  obtain ⟨a, b, c, d, e, g⟩ := fl
  revert hall
  revert a b c d e g
  decide

/-- C5 witness: the all flag alone yields all five targets. -/
theorem C5_all_flag_expands_witness :
    resolveTargets ⟨false, false, false, false, false, true⟩ =
      ⟨true, true, true, true, true⟩ ∧
    resolveTargets ⟨false, false, false, false, false, true⟩ =
      resolveTargets ⟨true, true, true, true, true, false⟩ :=
  C5_all_flag_expands ⟨false, false, false, false, false, true⟩ rfl

/-! ## NAME / field validation (C6, C9) -/

theorem validateDiagramArgs_ok (name field : Option (List String))
    (out : PyNameValue × Option (List String))
    (hout : validateDiagramArgs name field = Except.ok out) :
    out.2 = field ∧ (pyNameTruthy out.1 = true → optListTruthy name = true) ∧
      (∀ l, out.1 = PyNameValue.pyList l → l.length ≤ 1) := by
  unfold validateDiagramArgs at hout
  by_cases hc : (optListTruthy name && optListTruthy field) = true
  · rw [if_pos hc] at hout
    exact absurd hout (by simp)
  · rw [if_neg hc] at hout
    cases name with
    | none =>
      simp only [validateNamePart, Except.ok.injEq] at hout
      subst hout
      exact ⟨rfl, by simp [pyNameTruthy], by simp [pyNameTruthy]⟩
    | some l =>
      simp only [validateNamePart] at hout
      by_cases hl : 1 < l.length
      · rw [if_pos hl] at hout
        exact absurd hout (by simp)
      · rw [if_neg hl] at hout
        cases l with
        | nil =>
          simp only [collapseName, Except.ok.injEq] at hout
          subst hout
          refine ⟨rfl, by simp [pyNameTruthy], ?_⟩
          rintro l2 hl2
          simp only [PyNameValue.pyList.injEq] at hl2
          subst hl2
          simp
        | cons s t =>
          cases t with
          | nil =>
            simp only [collapseName, Except.ok.injEq] at hout
            subst hout
            exact ⟨rfl, fun _ => by simp [optListTruthy],
              fun l2 hl2 => by simp [pyNameTruthy] at hl2⟩
          | cons s2 t2 =>
            simp only [List.length_cons] at hl
            omega

/-- C6: supplying both a non-empty subject NAME and field tokens fails
command-line validation (the two input modes are mutually exclusive), and on
success main_diagram never receives both a truthy name and truthy fields. -/
theorem C6_name_field_mutually_exclusive (name field : Option (List String)) :
    (optListTruthy name = true → optListTruthy field = true →
      ∃ msg, validateDiagramArgs name field = Except.error msg) ∧
    (∀ out, validateDiagramArgs name field = Except.ok out →
      ¬(pyNameTruthy out.1 = true ∧ optListTruthy out.2 = true)) := by
  constructor
  · intro hn hf
    refine ⟨"manually specifying fields using --field is mutually exclusive with specifying a name", ?_⟩
    unfold validateDiagramArgs
    rw [if_pos (by simp [hn, hf])]
  · rintro out hout ⟨h1, h2⟩
    obtain ⟨hfield, hname, _⟩ := validateDiagramArgs_ok name field out hout
    have hn := hname h1
    have hf : optListTruthy field = true := by
      rw [← hfield]
      exact h2
    unfold validateDiagramArgs at hout
    rw [if_pos (by simp [hn, hf])] at hout
    exact absurd hout (by simp)

/-- C6 witness: a name together with a manual field token is rejected. -/
theorem C6_name_field_mutually_exclusive_witness :
    ∃ msg, validateDiagramArgs (some ["add"]) (some ["sf[31]"]) =
      Except.error msg :=
  (C6_name_field_mutually_exclusive (some ["add"]) (some ["sf[31]"])).1 rfl rfl

/-- C9: the NAME reaching main_diagram is never a list of two or more names —
two or more names are a parser error, and exactly one name collapses to that
string. -/
theorem C9_name_collapses (name field : Option (List String)) :
    (∀ l, name = some l → 2 ≤ l.length →
      ∃ msg, validateDiagramArgs name field = Except.error msg) ∧
    (∀ out, validateDiagramArgs name field = Except.ok out →
      ∀ l, out.1 = PyNameValue.pyList l → l.length ≤ 1) ∧
    (∀ s, name = some [s] → optListTruthy field = false →
      validateDiagramArgs name field = Except.ok (PyNameValue.pyStr s, field)) := by
  refine ⟨?_, ?_, ?_⟩
  · rintro l rfl hlen
    unfold validateDiagramArgs
    by_cases hc : (optListTruthy (some l) && optListTruthy field) = true
    · exact ⟨"manually specifying fields using --field is mutually exclusive with specifying a name",
        by rw [if_pos hc]⟩
    · refine ⟨"expected exactly one name", ?_⟩
      rw [if_neg hc]
      simp only [validateNamePart]
      rw [if_pos (by omega)]
  · intro out hout
    exact (validateDiagramArgs_ok name field out hout).2.2
  · rintro s rfl hf
    unfold validateDiagramArgs
    rw [if_neg (by simp [hf])]
    rfl

/-- C9 witness: two names are rejected; one name collapses to a string. -/
theorem C9_name_collapses_witness :
    (∃ msg, validateDiagramArgs (some ["add", "sub"]) none = Except.error msg) ∧
    validateDiagramArgs (some ["add"]) none =
      Except.ok (PyNameValue.pyStr "add", none) :=
  ⟨(C9_name_collapses (some ["add", "sub"]) none).1 ["add", "sub"] rfl
      (by decide),
    (C9_name_collapses (some ["add"]) none).2.2 "add" rfl rfl⟩

/-! ## Width option (C7) -/

/-- C7: the accepted bit width is exactly one of 8, 16, 32, 64 — any other
value for the -s option is rejected at argument parsing, and omitting the
option yields 32. -/
theorem C7_width_option (o : Option Int) :
    (o = none → parseWidthOption o = Except.ok 32) ∧
    (∀ w, parseWidthOption o = Except.ok w →
      w = 8 ∨ w = 16 ∨ w = 32 ∨ w = 64) ∧
    (∀ v, o = some v → v ∉ widthChoices →
      ∃ msg, parseWidthOption o = Except.error msg) := by
  refine ⟨?_, ?_, ?_⟩
  · rintro rfl
    rfl
  · intro w hw
    cases o with
    | none =>
      simp only [parseWidthOption, Except.ok.injEq] at hw
      omega
    | some v =>
      simp only [parseWidthOption] at hw
      by_cases hv : v ∈ widthChoices
      · rw [if_pos hv] at hw
        simp only [Except.ok.injEq] at hw
        subst hw
        simpa [widthChoices] using hv
      · rw [if_neg hv] at hw
        exact absurd hw (by simp)
  · rintro v rfl hv
    refine ⟨"invalid choice", ?_⟩
    simp only [parseWidthOption]
    rw [if_neg hv]

/-- C7 witness: omitted option gives 32, width 7 is rejected, width 8 is in
the accepted set. -/
theorem C7_width_option_witness :
    parseWidthOption none = Except.ok 32 ∧
    ((8 : Int) = 8 ∨ (8 : Int) = 16 ∨ (8 : Int) = 32 ∨ (8 : Int) = 64) ∧
    (∃ msg, parseWidthOption (some 7) = Except.error msg) :=
  ⟨(C7_width_option none).1 rfl,
    (C7_width_option (some 8)).2.1 8 (by rfl),
    (C7_width_option (some 7)).2.2 7 rfl (by decide)⟩

/-! ## Exception handling (C8) -/

/-- C8: with debug off, an ArchAdeptError is rendered and main returns exit
status 1 instead of crashing, while any exception outside the taxonomy is
re-raised wrapped as UngracefulExit, a class distinct from the user-facing
errors. -/
theorem C8_error_handling (debug : Bool) (body : Except AppException Int) :
    (∀ m, debug = false →
      body = Except.error (AppException.archAdeptError m) →
      mainExceptionHandler debug body = (Except.ok 1, true)) ∧
    (∀ m, body = Except.error (AppException.otherException m) →
      mainExceptionHandler debug body =
        (Except.error (FinalException.ungracefulExit m), false)) ∧
    (∀ m m2, FinalException.ungracefulExit m ≠ FinalException.archAdeptError m2) := by
  refine ⟨?_, ?_, ?_⟩
  · rintro m rfl rfl
    rfl
  · rintro m rfl
    rfl
  · intro m m2 h
    simp at h

/-- C8 witness: a user-facing error becomes exit status 1 after rendering; an
internal error is wrapped as UngracefulExit. -/
theorem C8_error_handling_witness :
    mainExceptionHandler false
        (Except.error (AppException.archAdeptError "bad token")) =
      (Except.ok 1, true) ∧
    mainExceptionHandler false
        (Except.error (AppException.otherException "type error")) =
      (Except.error (FinalException.ungracefulExit "type error"), false) :=
  ⟨(C8_error_handling false
      (Except.error (AppException.archAdeptError "bad token"))).1
      "bad token" rfl rfl,
    (C8_error_handling false
      (Except.error (AppException.otherException "type error"))).2.1
      "type error" rfl⟩

/-! ## Project default optimization level (C10) -/

/-- C10: evaluation of get_project_default_optimization_level.  A config file
parsing to the JSON number 5 makes the code raise TypeError (from
`'optimize' in 5`) instead of returning 1 as the claim and the function's own
docstring state; the dict cases and the missing-file case behave as claimed. -/
theorem C10_optimization_level_evaluation :
    getProjectDefaultOptimizationLevel (some (JValue.jint 5)) =
      Except.error PyError.typeError ∧
    getProjectDefaultOptimizationLevel none = Except.ok 1 ∧
    getProjectDefaultOptimizationLevel
        (some (JValue.jobj [("optimize", JValue.jint 2)])) = Except.ok 2 ∧
    getProjectDefaultOptimizationLevel
        (some (JValue.jobj [("supports-run", JValue.jbool true)])) =
      Except.ok 1 ∧
    getProjectDefaultOptimizationLevel
        (some (JValue.jobj [("optimize", JValue.jstr "two")])) = Except.ok 1 :=
  ⟨rfl, rfl, rfl, rfl, rfl⟩

end ArchAdept
